import Mathlib

/-!
Shallow embedding of `src/match.py` (student/track matching script) and
verification of its stated properties.

Modelling conventions:
* Python `float` grades and averages are modelled as `ℚ`.
* Python `dict`s (semester weights, track capacities, track counters) are
  modelled as association lists `List (String × α)` looked up by first match;
  the program's dict literals have pairwise distinct keys, so this agrees
  with Python dict semantics.
* Python exceptions (`KeyError` on a missing dict key, `IndexError` on
  `wish_list[0]` of an empty tuple, `ZeroDivisionError`) are modelled with
  `Except String`.
* `print` output is not modelled; warnings only matter through control flow
  (the run continues), which is modelled.
-/

deriving instance DecidableEq for Except

namespace StudentTrackMatch

/-- Semester weights dict returned by `get_semester_weights` (src/match.py lines 11-15). -/
def get_semester_weights : List (String × ℕ) :=
  [("S5", 1), ("S6", 1), ("S7", 2), ("S8", 2)]

/-- Track capacities dict returned by `get_track_capacities` (src/match.py lines 18-27). -/
def get_track_capacities : List (String × ℕ) :=
  [("Augmentation et Autonomie", 24),
   ("Systèmes Cognitifs Hybrides", 24),
   ("Intelligence Artificielle", 24),
   ("Robotique", 10)]

/-- Python dict lookup `d[key]` on an association list: first binding wins,
`none` models a raised `KeyError`. -/
def dictLookup {α : Type} : List (String × α) → String → Option α
  | [], _ => none
  | (k, v) :: rest, key => if k = key then some v else dictLookup rest key

/-- The `Student` dataclass (src/match.py lines 30-41): names, a semester →
optional grade mapping, and an ordered tuple of track wishes. The derived
`avg_grade` field is modelled by the function `Student.avg_grade` below,
since it is a pure function of `grade_list`. -/
structure Student where
  last_name : String
  first_name : String
  grade_list : List (String × Option ℚ)
  wish_list : List String
  deriving DecidableEq, Repr

/-- Loop body of `Student.__compute_avg_grade` (src/match.py lines 51-60): the
accumulator is the pair `(weighted_grade_sum, weight_count)`; an entry
contributes `grade * weight` and `weight` when its semester is in the weights
dict and its grade is present; a semester missing from the weights dict only
triggers a printed warning and is skipped; an absent grade is skipped. -/
def avgStep (acc : ℚ × ℕ) (p : String × Option ℚ) : ℚ × ℕ :=
  match dictLookup get_semester_weights p.1, p.2 with
  | some w, some g => (acc.1 + g * (w : ℚ), acc.2 + w)
  | some _, none => acc
  | none, _ => acc

/-- Body of `Student.__compute_avg_grade` (src/match.py lines 43-66): fold
`avgStep` over `grade_list` starting from `(0, 0)`, then return
`weighted_grade_sum / weight_count` if the sum is strictly positive, else `0`
(with a printed warning). -/
def computeAvgGrade (grade_list : List (String × Option ℚ)) : ℚ :=
  let r := grade_list.foldl avgStep ((0 : ℚ), (0 : ℕ))
  if 0 < r.1 then r.1 / (r.2 : ℚ) else 0

/-- The `avg_grade` field computed in `Student.__post_init__` (src/match.py lines 40-41). -/
def Student.avg_grade (s : Student) : ℚ := computeAvgGrade s.grade_list

/-- The `Match` named tuple (src/match.py lines 72-77): a student, the assigned
track name, and the 1-based wish rank of that track. -/
structure Match where
  student : Student
  track_name : String
  wish_rank : ℕ
  deriving DecidableEq, Repr

/-- The wish-scanning `while` loop of `match_student` (src/match.py lines 131-147),
rendered as recursion over the not-yet-examined suffix of the wish list, with
`rank` the 0-based index of the head of `suffix` within the full wish list.
Each iteration looks up the current wish in `track_count` and
`track_capacities` (a missing key is Python's `KeyError`); if `count ==
capacity` the loop advances to the next wish, otherwise it returns
`Match`'s payload `(track_name, rank + 1)`; an exhausted wish list yields
`none` (no track found). -/
def matchLoopGo (track_count track_capacities : List (String × ℕ)) :
    List String → ℕ → Except String (Option (String × ℕ))
  | [], _ => .ok none
  | track_name :: rest, rank =>
    match dictLookup track_count track_name, dictLookup track_capacities track_name with
    | some c, some k =>
      if c = k then matchLoopGo track_count track_capacities rest (rank + 1)
      else .ok (some (track_name, rank + 1))
    | _, _ => .error "KeyError"

/-- `match_student` (src/match.py lines 126-147): scan the student's wishes in
order for the first non-full track; `student.wish_list[0]` on an empty wish
tuple is Python's `IndexError`. -/
def match_student (student : Student) (track_count track_capacities : List (String × ℕ)) :
    Except String (Option Match) :=
  match student.wish_list with
  | [] => .error "IndexError"
  | _ :: _ =>
    (matchLoopGo track_count track_capacities student.wish_list 0).map
      (Option.map (fun p => { student := student, track_name := p.1, wish_rank := p.2 }))

/-- Stable insertion of a student into a list sorted by `avg_grade` descending:
`s` goes before the first element whose average is not strictly greater. -/
def insertStudent (s : Student) : List Student → List Student
  | [] => [s]
  | t :: rest =>
    if s.avg_grade < t.avg_grade then t :: insertStudent s rest else s :: t :: rest

/-- The merit ranking `sorted(student_list, key=lambda student:
student.avg_grade, reverse=True)` (src/match.py lines 158-160): a stable sort
by average grade descending. Python's `sorted` is stable and `reverse=True`
preserves the input order of equal keys, so its output is the unique
permutation that is sorted descending and stable; this insertion sort produces
exactly that permutation (proved below: permutation, sortedness, stability). -/
def sortStudents : List Student → List Student
  | [] => []
  | s :: rest => insertStudent s (sortStudents rest)

/-- `dict.fromkeys(track_capacities.keys(), 0)` (src/match.py line 163). -/
def initTrackCount (track_capacities : List (String × ℕ)) : List (String × ℕ) :=
  track_capacities.map (fun p => (p.1, 0))

/-- `track_count[name] += 1` (src/match.py line 169): increment the binding of
`name`; `none` models the `KeyError` raised when `name` is absent. -/
def incrTrack : List (String × ℕ) → String → Option (List (String × ℕ))
  | [], _ => none
  | (k, v) :: rest, key =>
    if k = key then some ((k, v + 1) :: rest)
    else (incrTrack rest key).map (fun l => (k, v) :: l)

/-- The per-student loop of `match_students` (src/match.py lines 165-172):
process students in order, appending each produced `Match` and incrementing
the matched track's counter; a `None` result only prints a warning and the
loop continues with the next student. Returns the final match list and
counter state. -/
def matchStudentsGo (track_capacities : List (String × ℕ)) :
    List Student → List (String × ℕ) → List Match →
    Except String (List Match × List (String × ℕ))
  | [], track_count, match_list => .ok (match_list, track_count)
  | student :: rest, track_count, match_list =>
    match match_student student track_count track_capacities with
    | .error e => .error e
    | .ok none => matchStudentsGo track_capacities rest track_count match_list
    | .ok (some m) =>
      match incrTrack track_count m.track_name with
      | none => .error "KeyError"
      | some track_count' =>
        matchStudentsGo track_capacities rest track_count' (match_list ++ [m])

/-- `match_students` (src/match.py lines 150-173): sort students by merit
descending, initialize all track counters to 0, then run the per-student loop
and return the match list. -/
def match_students (student_list : List Student) (track_capacities : List (String × ℕ)) :
    Except String (List Match) :=
  (matchStudentsGo track_capacities (sortStudents student_list)
      (initTrackCount track_capacities) []).map (fun p => p.1)

/-- Number of matches assigned to a given track in a match list. -/
def countTrack (match_list : List Match) (name : String) : ℕ :=
  (match_list.filter (fun m => m.track_name = name)).length

/-- The per-wish-rank summary loop of `print_results` (src/match.py lines
224-233): for each `rank` in `range(1, len(track_capacities) + 1)`, count the
matches at that rank, compute `match_count / total_match_count` (Python raises
`ZeroDivisionError` when `total_match_count` is 0, since the division is
evaluated before the `match_count > 0` guard), and print a line — modelled as
an emitted `(rank, count, percentage)` triple — only when the count is
positive. -/
def wishSummaryStep (match_list : List Match) (lines : List (ℕ × ℕ × ℚ)) (rank : ℕ) :
    Except String (List (ℕ × ℕ × ℚ)) :=
  let match_count := (match_list.filter (fun m => m.wish_rank = rank)).length
  if match_list.length = 0 then .error "ZeroDivisionError"
  else
    let match_percent : ℚ := (match_count : ℚ) / (match_list.length : ℚ)
    .ok (if 0 < match_count then lines ++ [(rank, match_count, match_percent)] else lines)

/-- The rank loop itself (src/match.py line 227): `for rank in range(1,
track_count + 1)` with `track_count = len(track_capacities)`. -/
def wishSummary (match_list : List Match) (track_capacities : List (String × ℕ)) :
    Except String (List (ℕ × ℕ × ℚ)) :=
  (List.range' 1 track_capacities.length).foldlM (wishSummaryStep match_list) []

/-- Specification-side weighted grade sum: sum of `grade * weight` over the
entries whose semester is in the weights table and whose grade is present;
other entries contribute nothing. -/
def specWeightedSum (grade_list : List (String × Option ℚ)) : ℚ :=
  (grade_list.map (fun p =>
    match dictLookup get_semester_weights p.1, p.2 with
    | some w, some g => g * (w : ℚ)
    | _, _ => 0)).sum

/-- Specification-side weight total: sum of the weights of the entries whose
semester is in the weights table and whose grade is present. -/
def specWeightTotal (grade_list : List (String × Option ℚ)) : ℕ :=
  (grade_list.map (fun p =>
    match dictLookup get_semester_weights p.1, p.2 with
    | some w, some _ => w
    | _, _ => 0)).sum

/-- Specification-side report line for one rank: its match count and that
count's percentage of the total, or nothing when the count is zero. -/
def specWishLine (match_list : List Match) (rank : ℕ) : Option (ℕ × ℕ × ℚ) :=
  let c := (match_list.filter (fun m => m.wish_rank = rank)).length
  if 0 < c then some (rank, c, (c : ℚ) / (match_list.length : ℚ)) else none

/-- Specification-side wish-rank report: for each rank in `1..numRanks`, the
count of matches at that rank and its percentage of the total, listed only
when the count is positive. -/
def specWishSummary (match_list : List Match) (numRanks : ℕ) : List (ℕ × ℕ × ℚ) :=
  (List.range' 1 numRanks).filterMap (specWishLine match_list)

/-- A track with count equal to capacity (both present): "full" in the sense of
the `while` condition of `match_student`. -/
def TrackFull (track_count track_capacities : List (String × ℕ)) (t : String) : Prop :=
  ∃ v, dictLookup track_count t = some v ∧ dictLookup track_capacities t = some v

/-- Per-track capacity invariant tying a counter state to the matches made so
far: the counter dict has exactly the capacity dict's keys, each counter equals
the number of matches made to that track, and no counter exceeds its capacity. -/
def CountInv (track_capacities track_count : List (String × ℕ)) (acc : List Match) : Prop :=
  (∀ C, dictLookup track_capacities C = none → dictLookup track_count C = none) ∧
  (∀ C k, dictLookup track_capacities C = some k →
    dictLookup track_count C = some (countTrack acc C) ∧ countTrack acc C ≤ k)

/-- Concrete example data: two tracks of capacity 1. -/
def capsAB : List (String × ℕ) := [("A", 1), ("B", 1)]

/-- Concrete example student with an empty grade record and wishes A then B. -/
def stuA : Student := ⟨"Alpha", "Ann", [], ["A", "B"]⟩

/-- Concrete example student with an empty grade record and wishes A then B. -/
def stuB : Student := ⟨"Beta", "Bob", [], ["A", "B"]⟩

/-- Concrete example student whose three wishes are A, A, B. -/
def stuC : Student := ⟨"Gamma", "Gil", [], ["A", "A", "B"]⟩

/-- Concrete example student whose three wishes are A, A, B. -/
def stuD : Student := ⟨"Delta", "Dan", [], ["A", "A", "B"]⟩

/-- The match list produced by running the allocator on `[stuC, stuD]` with
capacities `capsAB`: stuD is assigned its third wish. -/
def exMatches3 : List Match := [⟨stuC, "A", 1⟩, ⟨stuD, "B", 3⟩]

/-- The student of the spec's worked score example: grades
`S5 = 10, S6 = None, S7 = 12, S8 = None`. -/
def stuE : Student :=
  ⟨"Epsilon", "Eve", [("S5", some 10), ("S6", none), ("S7", some 12), ("S8", none)], ["A"]⟩

/-! ## Association-list and counter lemmas -/

theorem dictLookup_initTrackCount (track_capacities : List (String × ℕ)) (C : String) :
    dictLookup (initTrackCount track_capacities) C =
      (dictLookup track_capacities C).map (fun _ => 0) := by
  induction track_capacities with
  | nil => rfl
  | cons p rest ih =>
    obtain ⟨k, v⟩ := p
    by_cases h : k = C
    · simp [initTrackCount, dictLookup, h]
    · simp [initTrackCount, dictLookup, h] at ih ⊢
      exact ih

theorem incrTrack_spec (track_count : List (String × ℕ)) (t : String) (c : ℕ)
    (h : dictLookup track_count t = some c) :
    ∃ cnt', incrTrack track_count t = some cnt' ∧
      dictLookup cnt' t = some (c + 1) ∧
      ∀ u, u ≠ t → dictLookup cnt' u = dictLookup track_count u := by
  induction track_count with
  | nil => simp [dictLookup] at h
  | cons p rest ih =>
    obtain ⟨k, v⟩ := p
    by_cases hk : k = t
    · subst hk
      obtain rfl : v = c := by simpa [dictLookup] using h
      refine ⟨(k, v + 1) :: rest, by simp [incrTrack], by simp [dictLookup], ?_⟩
      intro u hu
      have hku : ¬k = u := fun hh => hu hh.symm
      simp [dictLookup, hku]
    · rw [dictLookup, if_neg hk] at h
      obtain ⟨cnt', h1, h2, h3⟩ := ih h
      refine ⟨(k, v) :: cnt', by simp [incrTrack, hk, h1], ?_, ?_⟩
      · rw [dictLookup, if_neg hk]; exact h2
      · intro u hu
        by_cases hku : k = u
        · simp [dictLookup, hku]
        · rw [dictLookup, if_neg hku, dictLookup, if_neg hku]; exact h3 u hu

theorem countTrack_nil (C : String) : countTrack [] C = 0 := rfl

theorem countTrack_append (acc : List Match) (m : Match) (C : String) :
    countTrack (acc ++ [m]) C =
      countTrack acc C + (if m.track_name = C then 1 else 0) := by
  by_cases h : m.track_name = C <;> simp [countTrack, List.filter_append, h]

/-! ## Lemmas about the wish-scanning loop of `match_student` -/

theorem matchLoopGo_ok_some (track_count track_capacities : List (String × ℕ)) :
    ∀ (suffix : List String) (rank : ℕ) (n : String) (r : ℕ),
      matchLoopGo track_count track_capacities suffix rank = .ok (some (n, r)) →
      ∃ i, suffix[i]? = some n ∧ r = rank + i + 1 ∧
        (∃ c k, dictLookup track_count n = some c ∧
          dictLookup track_capacities n = some k ∧ c ≠ k) ∧
        ∀ j t, j < i → suffix[j]? = some t →
          TrackFull track_count track_capacities t := by
  intro suffix
  induction suffix with
  | nil =>
    intro rank n r h
    simp [matchLoopGo] at h
  | cons name rest ih =>
    intro rank n r h
    rcases hc : dictLookup track_count name with _ | c
    · simp [matchLoopGo, hc] at h
    rcases hk : dictLookup track_capacities name with _ | k
    · simp [matchLoopGo, hc, hk] at h
    by_cases hck : c = k
    · rw [matchLoopGo] at h
      simp only [hc, hk, if_pos hck] at h
      obtain ⟨i, hi, hr, hfound, hfull⟩ := ih (rank + 1) n r h
      refine ⟨i + 1, by simpa using hi, by omega, hfound, ?_⟩
      intro j t hj hjt
      match j with
      | 0 =>
        have ht : name = t := by simpa using hjt
        exact ⟨k, by rw [← ht, hc, hck], by rw [← ht, hk]⟩
      | j + 1 =>
        exact hfull j t (by omega) (by simpa using hjt)
    · rw [matchLoopGo] at h
      simp only [hc, hk, if_neg hck] at h
      obtain ⟨hn, hr⟩ := by
        have := h
        simp at this
        exact this
      refine ⟨0, by simp [hn], by omega, ⟨c, k, hn ▸ hc, hn ▸ hk, hck⟩, ?_⟩
      intro j t hj
      omega

theorem matchLoopGo_all_full (track_count track_capacities : List (String × ℕ)) :
    ∀ (suffix : List String),
      (∀ t ∈ suffix, TrackFull track_count track_capacities t) →
      ∀ rank, matchLoopGo track_count track_capacities suffix rank = .ok none := by
  intro suffix
  induction suffix with
  | nil => intro _ rank; rfl
  | cons name rest ih =>
    intro h rank
    obtain ⟨v, hc, hk⟩ := h name (by simp)
    rw [matchLoopGo]
    simp only [hc, hk, if_pos rfl]
    exact ih (fun t ht => h t (by simp [ht])) (rank + 1)

theorem matchLoopGo_no_error (track_count track_capacities : List (String × ℕ)) :
    ∀ (suffix : List String),
      (∀ t ∈ suffix,
        (dictLookup track_count t).isSome ∧ (dictLookup track_capacities t).isSome) →
      ∀ rank, ∃ o, matchLoopGo track_count track_capacities suffix rank = .ok o := by
  intro suffix
  induction suffix with
  | nil => intro _ rank; exact ⟨none, rfl⟩
  | cons name rest ih =>
    intro h rank
    obtain ⟨h1, h2⟩ := h name (by simp)
    rcases hc : dictLookup track_count name with _ | c
    · rw [hc] at h1; simp at h1
    rcases hk : dictLookup track_capacities name with _ | k
    · rw [hk] at h2; simp at h2
    by_cases hck : c = k
    · obtain ⟨o, ho⟩ := ih (fun t ht => h t (by simp [ht])) (rank + 1)
      refine ⟨o, ?_⟩
      rw [matchLoopGo]
      simp only [hc, hk, if_pos hck]
      exact ho
    · refine ⟨some (name, rank + 1), ?_⟩
      rw [matchLoopGo]
      simp only [hc, hk, if_neg hck]

/-! ## Lemmas about `match_student` -/

theorem match_student_ok_some (s : Student) (track_count track_capacities : List (String × ℕ))
    (m : Match) (h : match_student s track_count track_capacities = .ok (some m)) :
    m.student = s ∧ 1 ≤ m.wish_rank ∧ m.wish_rank ≤ s.wish_list.length ∧
      s.wish_list[m.wish_rank - 1]? = some m.track_name ∧
      (∃ c k, dictLookup track_count m.track_name = some c ∧
        dictLookup track_capacities m.track_name = some k ∧ c ≠ k) ∧
      ∀ j t, j + 1 < m.wish_rank → s.wish_list[j]? = some t →
        TrackFull track_count track_capacities t := by
  rcases hw : s.wish_list with _ | ⟨w, rest⟩
  · rw [match_student, hw] at h
    simp at h
  · rw [match_student, hw] at h
    rcases hml : matchLoopGo track_count track_capacities (w :: rest) 0 with e | o
    · rw [hml] at h; simp [Except.map] at h
    rcases o with _ | ⟨nm, r⟩
    · rw [hml] at h; simp [Except.map] at h
    rw [hml] at h
    simp [Except.map] at h
    obtain ⟨i, hi, hr, hfound, hfull⟩ :=
      matchLoopGo_ok_some track_count track_capacities (w :: rest) 0 nm r hml
    have hilt : i < rest.length + 1 := by
      by_contra hh
      rw [List.getElem?_eq_none (by simp; omega)] at hi
      cases hi
    have hr1 : r = i + 1 := by omega
    subst h
    refine ⟨rfl, ?_, ?_, ?_, hfound, ?_⟩
    · show 1 ≤ r
      omega
    · show r ≤ (w :: rest).length
      simp
      omega
    · show (w :: rest)[r - 1]? = some nm
      rw [hr1]
      simpa using hi
    · intro j t hj hjt
      have hjr : j + 1 < r := hj
      exact hfull j t (by omega) hjt

theorem match_student_all_full (s : Student) (track_count track_capacities : List (String × ℕ))
    (hne : s.wish_list ≠ [])
    (h : ∀ t ∈ s.wish_list, TrackFull track_count track_capacities t) :
    match_student s track_count track_capacities = .ok none := by
  rcases hw : s.wish_list with _ | ⟨w, rest⟩
  · exact absurd hw hne
  · rw [match_student, hw]
    rw [matchLoopGo_all_full track_count track_capacities (w :: rest) (hw ▸ h) 0]
    rfl

/-! ## Lemmas about the per-student loop of `match_students` -/

theorem matchStudentsGo_inv (track_capacities : List (String × ℕ)) :
    ∀ (todo : List Student) (track_count : List (String × ℕ)) (acc ms : List Match)
      (cnt' : List (String × ℕ)),
      CountInv track_capacities track_count acc →
      matchStudentsGo track_capacities todo track_count acc = .ok (ms, cnt') →
      CountInv track_capacities cnt' ms := by
  intro todo
  induction todo with
  | nil =>
    intro cnt acc ms cnt' hinv h
    simp [matchStudentsGo] at h
    obtain ⟨h1, h2⟩ := h
    rw [← h1, ← h2]
    exact hinv
  | cons s rest ih =>
    intro cnt acc ms cnt' hinv h
    rcases hms : match_student s cnt track_capacities with e | o
    · rw [matchStudentsGo, hms] at h
      cases h
    rcases o with _ | m
    · rw [matchStudentsGo, hms] at h
      exact ih cnt acc ms cnt' hinv h
    obtain ⟨hstud, hrank1, hrankle, hpos, ⟨c, k, hc, hk, hck⟩, hfull⟩ :=
      match_student_ok_some s cnt track_capacities m hms
    obtain ⟨cnt2, hinc, hlook, hother⟩ := incrTrack_spec cnt m.track_name c hc
    simp only [matchStudentsGo, hms, hinc] at h
    refine ih cnt2 (acc ++ [m]) ms cnt' ?_ h
    obtain ⟨hnone, hsome⟩ := hinv
    constructor
    · intro C hC
      have hne : C ≠ m.track_name := by
        intro he
        rw [he, hk] at hC
        cases hC
      rw [hother C hne]
      exact hnone C hC
    · intro C kk hC
      by_cases hmc : m.track_name = C
      · subst hmc
        obtain ⟨hcntC, hleC⟩ := hsome m.track_name kk hC
        have hcc : countTrack acc m.track_name = c := by
          rw [hc] at hcntC
          injection hcntC with hh
          exact hh.symm
        have hckk : c ≠ kk := by
          rw [hC] at hk
          injection hk with hh
          rw [hh]
          exact hck
        rw [hcc] at hleC
        rw [countTrack_append]
        constructor
        · simp [hlook, hcc]
        · simp [hcc]
          omega
      · have hne : C ≠ m.track_name := fun he => hmc he.symm
        rw [countTrack_append]
        simp only [if_neg hmc, Nat.add_zero]
        rw [hother C hne]
        exact hsome C kk hC

theorem matchStudentsGo_append (track_capacities : List (String × ℕ)) :
    ∀ (xs ys : List Student) (track_count : List (String × ℕ)) (acc : List Match),
      matchStudentsGo track_capacities (xs ++ ys) track_count acc =
        (matchStudentsGo track_capacities xs track_count acc).bind
          (fun p => matchStudentsGo track_capacities ys p.2 p.1) := by
  intro xs
  induction xs with
  | nil =>
    intro ys cnt acc
    simp [matchStudentsGo, Except.bind]
  | cons s rest ih =>
    intro ys cnt acc
    rcases hms : match_student s cnt track_capacities with e | o
    · simp [matchStudentsGo, hms, Except.bind]
    rcases o with _ | m
    · rw [List.cons_append, matchStudentsGo, hms, matchStudentsGo, hms]
      exact ih ys cnt acc
    rcases hinc : incrTrack cnt m.track_name with _ | cnt2
    · simp [matchStudentsGo, hms, hinc, Except.bind]
    · simp only [List.cons_append, matchStudentsGo, hms, hinc]
      exact ih ys cnt2 (acc ++ [m])

theorem matchStudentsGo_students_sublist (track_capacities : List (String × ℕ)) :
    ∀ (todo : List Student) (track_count : List (String × ℕ)) (acc ms : List Match)
      (cnt' : List (String × ℕ)),
      matchStudentsGo track_capacities todo track_count acc = .ok (ms, cnt') →
      ∃ ms2, ms = acc ++ ms2 ∧ List.Sublist (ms2.map Match.student) todo := by
  intro todo
  induction todo with
  | nil =>
    intro cnt acc ms cnt' h
    simp [matchStudentsGo] at h
    exact ⟨[], by simp [h.1.symm], by simp⟩
  | cons s rest ih =>
    intro cnt acc ms cnt' h
    rcases hms : match_student s cnt track_capacities with e | o
    · rw [matchStudentsGo, hms] at h
      cases h
    rcases o with _ | m
    · rw [matchStudentsGo, hms] at h
      obtain ⟨ms2, heq, hsub⟩ := ih cnt acc ms cnt' h
      exact ⟨ms2, heq, hsub.cons s⟩
    rcases hinc : incrTrack cnt m.track_name with _ | cnt2
    · simp only [matchStudentsGo, hms, hinc] at h
      cases h
    · simp only [matchStudentsGo, hms, hinc] at h
      obtain ⟨ms2, heq, hsub⟩ := ih cnt2 (acc ++ [m]) ms cnt' h
      have hstud :=
        (match_student_ok_some s cnt track_capacities m hms).1
      refine ⟨m :: ms2, by simp [heq], ?_⟩
      rw [List.map_cons, hstud]
      exact hsub.cons₂ s

/-! ## Lemmas about the merit sort -/

theorem insertStudent_perm (s : Student) (l : List Student) :
    List.Perm (insertStudent s l) (s :: l) := by
  induction l with
  | nil => exact List.Perm.refl [s]
  | cons t rest ih =>
    by_cases h : s.avg_grade < t.avg_grade
    · rw [insertStudent, if_pos h]
      exact (ih.cons t).trans (List.Perm.swap s t rest)
    · rw [insertStudent, if_neg h]

theorem sortStudents_perm (l : List Student) :
    List.Perm (sortStudents l) l := by
  induction l with
  | nil => exact List.Perm.refl []
  | cons s rest ih =>
    exact (insertStudent_perm s (sortStudents rest)).trans (ih.cons s)

theorem insertStudent_pairwise (s : Student) (l : List Student)
    (h : l.Pairwise (fun a b => b.avg_grade ≤ a.avg_grade)) :
    (insertStudent s l).Pairwise (fun a b => b.avg_grade ≤ a.avg_grade) := by
  induction l with
  | nil => simp [insertStudent]
  | cons t rest ih =>
    obtain ⟨h1, h2⟩ := List.pairwise_cons.mp h
    by_cases hst : s.avg_grade < t.avg_grade
    · rw [insertStudent, if_pos hst]
      refine List.pairwise_cons.mpr ⟨?_, ih h2⟩
      intro x hx
      rcases List.mem_cons.mp ((insertStudent_perm s rest).mem_iff.mp hx) with hxs | hxr
      · rw [hxs]
        exact le_of_lt hst
      · exact h1 x hxr
    · rw [insertStudent, if_neg hst]
      refine List.pairwise_cons.mpr ⟨?_, h⟩
      intro x hx
      rcases List.mem_cons.mp hx with hxt | hxr
      · rw [hxt]
        exact le_of_not_lt hst
      · exact le_trans (h1 x hxr) (le_of_not_lt hst)

theorem sortStudents_pairwise (l : List Student) :
    (sortStudents l).Pairwise (fun a b => b.avg_grade ≤ a.avg_grade) := by
  induction l with
  | nil => simp [sortStudents]
  | cons s rest ih => exact insertStudent_pairwise s (sortStudents rest) ih

theorem filter_insertStudent (q : ℚ) (s : Student) (l : List Student) :
    (insertStudent s l).filter (fun a => a.avg_grade = q) =
      if s.avg_grade = q then s :: l.filter (fun a => a.avg_grade = q)
      else l.filter (fun a => a.avg_grade = q) := by
  induction l with
  | nil =>
    by_cases hs : s.avg_grade = q <;> simp [insertStudent, hs]
  | cons t rest ih =>
    by_cases hst : s.avg_grade < t.avg_grade
    · rw [insertStudent, if_pos hst]
      by_cases hs : s.avg_grade = q
      · have ht : ¬t.avg_grade = q := by
          intro hh
          rw [hs] at hst
          rw [hh] at hst
          exact lt_irrefl q hst
        simp only [List.filter_cons]
        rw [ih]
        simp [hs, ht]
      · simp only [List.filter_cons]
        rw [ih]
        by_cases ht : t.avg_grade = q <;> simp [hs, ht]
    · rw [insertStudent, if_neg hst]
      by_cases hs : s.avg_grade = q <;> simp [List.filter_cons, hs]

theorem sortStudents_filter (q : ℚ) (l : List Student) :
    (sortStudents l).filter (fun a => a.avg_grade = q) =
      l.filter (fun a => a.avg_grade = q) := by
  induction l with
  | nil => rfl
  | cons s rest ih =>
    rw [sortStudents, filter_insertStudent, ih]
    by_cases hs : s.avg_grade = q <;> simp [List.filter_cons, hs]

/-! ## Lemmas about the average-grade fold -/

theorem avgFold_eq (grade_list : List (String × Option ℚ)) :
    ∀ (a : ℚ) (b : ℕ),
      grade_list.foldl avgStep (a, b) =
        (a + specWeightedSum grade_list, b + specWeightTotal grade_list) := by
  induction grade_list with
  | nil => intro a b; simp [specWeightedSum, specWeightTotal]
  | cons p rest ih =>
    intro a b
    rw [List.foldl_cons]
    rcases hw : dictLookup get_semester_weights p.1 with _ | w
    · rw [show avgStep (a, b) p = (a, b) by rw [avgStep]; rw [hw]]
      rw [ih a b]
      simp [specWeightedSum, specWeightTotal, hw]
    · rcases hg : p.2 with _ | g
      · rw [show avgStep (a, b) p = (a, b) by rw [avgStep]; rw [hw, hg]]
        rw [ih a b]
        simp [specWeightedSum, specWeightTotal, hw, hg]
      · rw [show avgStep (a, b) p = (a + g * (w : ℚ), b + w) by rw [avgStep]; rw [hw, hg]]
        rw [ih]
        simp only [specWeightedSum, specWeightTotal, List.map_cons, List.sum_cons, hw, hg,
          Prod.mk.injEq]
        constructor
        · ring
        · omega

theorem computeAvgGrade_eq_spec (grade_list : List (String × Option ℚ)) :
    computeAvgGrade grade_list =
      if 0 < specWeightedSum grade_list then
        specWeightedSum grade_list / (specWeightTotal grade_list : ℚ)
      else 0 := by
  rw [computeAvgGrade]
  rw [avgFold_eq grade_list 0 0]
  simp

/-! ## Lemmas about the report fold -/

theorem wishSummary_fold (match_list : List Match) (h : match_list.length ≠ 0) :
    ∀ (ranks : List ℕ) (acc : List (ℕ × ℕ × ℚ)),
      ranks.foldlM (wishSummaryStep match_list) acc =
        .ok (acc ++ ranks.filterMap (specWishLine match_list)) := by
  intro ranks
  induction ranks with
  | nil =>
    intro acc
    show (Except.ok acc : Except String (List (ℕ × ℕ × ℚ))) = _
    simp
  | cons r rest ih =>
    intro acc
    rw [List.foldlM_cons]
    by_cases hc : 0 < (match_list.filter (fun m => m.wish_rank = r)).length
    · rw [show wishSummaryStep match_list acc r =
          .ok (acc ++ [(r, (match_list.filter (fun m => m.wish_rank = r)).length,
            ((match_list.filter (fun m => m.wish_rank = r)).length : ℚ) /
              (match_list.length : ℚ))]) by
        rw [wishSummaryStep]
        simp [h, hc]]
      show rest.foldlM (wishSummaryStep match_list) _ = _
      rw [ih]
      simp [List.filterMap_cons, specWishLine, hc]
    · rw [show wishSummaryStep match_list acc r = .ok acc by
        rw [wishSummaryStep]
        simp [h, hc]]
      show rest.foldlM (wishSummaryStep match_list) acc = _
      rw [ih]
      simp [List.filterMap_cons, specWishLine, hc]

theorem wishSummary_eq_spec (match_list : List Match)
    (track_capacities : List (String × ℕ)) (h : match_list.length ≠ 0) :
    wishSummary match_list track_capacities =
      .ok (specWishSummary match_list track_capacities.length) := by
  rw [wishSummary, specWishSummary, wishSummary_fold match_list h]
  simp

/-! ## Claim theorems -/

/-- C1: for every allocation run — modelled as the per-student loop run on any
prefix of the merit-sorted candidate list, starting from all-zero counters —
and for every category `C` of the capacity table, the number of Assignments
made to `C` never exceeds `capacity(C)` at any point during the run (first
conjunct, for every prefix length `n`), and hence also in the final result of
`match_students` (second conjunct). -/
theorem c1_capacity_never_exceeded (student_list : List Student)
    (track_capacities : List (String × ℕ)) :
    (∀ (n : ℕ) (ms : List Match) (cnt : List (String × ℕ)),
      matchStudentsGo track_capacities ((sortStudents student_list).take n)
        (initTrackCount track_capacities) [] = .ok (ms, cnt) →
      ∀ C k, dictLookup track_capacities C = some k → countTrack ms C ≤ k) ∧
    (∀ ms, match_students student_list track_capacities = .ok ms →
      ∀ C k, dictLookup track_capacities C = some k → countTrack ms C ≤ k) := by
  have hinit : CountInv track_capacities (initTrackCount track_capacities) [] := by
    constructor
    · intro C hC
      rw [dictLookup_initTrackCount, hC]
      rfl
    · intro C k hC
      rw [dictLookup_initTrackCount, hC]
      exact ⟨rfl, Nat.zero_le k⟩
  constructor
  · intro n ms cnt h C k hC
    exact ((matchStudentsGo_inv track_capacities _ _ _ _ _ hinit h).2 C k hC).2
  · intro ms h C k hC
    rw [match_students] at h
    rcases hgo : matchStudentsGo track_capacities (sortStudents student_list)
        (initTrackCount track_capacities) [] with e | p
    · rw [hgo] at h
      simp [Except.map] at h
    · rw [hgo] at h
      have hms : p.1 = ms := by simpa [Except.map] using h
      subst hms
      exact ((matchStudentsGo_inv track_capacities _ _ _ _ _ hinit hgo).2 C k hC).2

theorem c1_capacity_never_exceeded_witness :
    matchStudentsGo capsAB ((sortStudents [stuA, stuB]).take 1) (initTrackCount capsAB) [] =
      .ok ([⟨stuA, "A", 1⟩], [("A", 1), ("B", 0)]) ∧
    countTrack [⟨stuA, "A", 1⟩] "A" ≤ 1 ∧
    match_students [stuA, stuB] capsAB = .ok [⟨stuA, "A", 1⟩, ⟨stuB, "B", 2⟩] ∧
    countTrack [⟨stuA, "A", 1⟩, ⟨stuB, "B", 2⟩] "A" ≤ 1 :=
  ⟨by decide,
   (c1_capacity_never_exceeded [stuA, stuB] capsAB).1 1 [⟨stuA, "A", 1⟩]
     [("A", 1), ("B", 0)] (by decide) "A" 1 (by decide),
   by decide,
   (c1_capacity_never_exceeded [stuA, stuB] capsAB).2 [⟨stuA, "A", 1⟩, ⟨stuB, "B", 2⟩]
     (by decide) "A" 1 (by decide)⟩

/-- C2: every Assignment appended at step `n + 1` of a run (the runs over
prefixes of length `n` and `n + 1` of the merit-sorted list produce `ms1` and
`ms1 ++ [m]`) was produced by `match_student` at the counter state `cnt1`
reached at the moment that candidate was processed; its category is exactly the
entry at 1-based position `wish_rank` of the candidate's preference list, and
every category at a strictly earlier position had count equal to capacity at
that moment. -/
theorem c2_assignment_rank_sound (student_list : List Student)
    (track_capacities : List (String × ℕ)) (n : ℕ)
    (ms1 : List Match) (cnt1 : List (String × ℕ))
    (ms2 : List Match) (cnt2 : List (String × ℕ)) (m : Match)
    (h1 : matchStudentsGo track_capacities ((sortStudents student_list).take n)
      (initTrackCount track_capacities) [] = .ok (ms1, cnt1))
    (h2 : matchStudentsGo track_capacities ((sortStudents student_list).take (n + 1))
      (initTrackCount track_capacities) [] = .ok (ms2, cnt2))
    (hm : ms2 = ms1 ++ [m]) :
    match_student m.student cnt1 track_capacities = .ok (some m) ∧
    1 ≤ m.wish_rank ∧ m.wish_rank ≤ m.student.wish_list.length ∧
    m.student.wish_list[m.wish_rank - 1]? = some m.track_name ∧
    ∀ j t, j + 1 < m.wish_rank → m.student.wish_list[j]? = some t →
      TrackFull cnt1 track_capacities t := by
  rcases hnth : (sortStudents student_list)[n]? with _ | s
  · have htake : (sortStudents student_list).take (n + 1) =
        (sortStudents student_list).take n := by
      rw [List.take_succ, hnth]
      simp
    rw [htake, h1] at h2
    have hlen : ms1 = ms2 := by
      injection h2 with hh
      exact congrArg Prod.fst hh
    rw [hm] at hlen
    simp at hlen
  · have htake : (sortStudents student_list).take (n + 1) =
        (sortStudents student_list).take n ++ [s] := by
      rw [List.take_succ, hnth]
      rfl
    rw [htake, matchStudentsGo_append, h1] at h2
    rcases hms : match_student s cnt1 track_capacities with e | o
    · simp only [Except.bind, matchStudentsGo, hms] at h2
      cases h2
    rcases o with _ | m'
    · simp only [Except.bind, matchStudentsGo, hms] at h2
      have hlen : ms1 = ms2 := by
        injection h2 with hh
        exact congrArg Prod.fst hh
      rw [hm] at hlen
      simp at hlen
    rcases hinc : incrTrack cnt1 m'.track_name with _ | cntB
    · simp only [Except.bind, matchStudentsGo, hms, hinc] at h2
      cases h2
    · simp only [Except.bind, matchStudentsGo, hms, hinc] at h2
      have hms2 : ms1 ++ [m'] = ms2 := by
        injection h2 with hh
        exact congrArg Prod.fst hh
      rw [hm] at hms2
      have hmm : m' = m := by simpa using hms2
      subst hmm
      obtain ⟨hstud, hrank1, hrankle, hpos, _, hfull⟩ :=
        match_student_ok_some s cnt1 track_capacities m' hms
      subst hstud
      exact ⟨hms, hrank1, hrankle, hpos, hfull⟩

theorem c2_assignment_rank_sound_witness :
    matchStudentsGo capsAB ((sortStudents [stuA, stuB]).take 1) (initTrackCount capsAB) [] =
      .ok ([⟨stuA, "A", 1⟩], [("A", 1), ("B", 0)]) ∧
    matchStudentsGo capsAB ((sortStudents [stuA, stuB]).take 2) (initTrackCount capsAB) [] =
      .ok ([⟨stuA, "A", 1⟩, ⟨stuB, "B", 2⟩], [("A", 1), ("B", 1)]) ∧
    match_student (⟨stuB, "B", 2⟩ : Match).student [("A", 1), ("B", 0)] capsAB =
      .ok (some ⟨stuB, "B", 2⟩) ∧
    (⟨stuB, "B", 2⟩ : Match).student.wish_list[(⟨stuB, "B", 2⟩ : Match).wish_rank - 1]? =
      some "B" ∧
    TrackFull [("A", 1), ("B", 0)] capsAB "A" := by
  have h1 : matchStudentsGo capsAB ((sortStudents [stuA, stuB]).take 1)
      (initTrackCount capsAB) [] = .ok ([⟨stuA, "A", 1⟩], [("A", 1), ("B", 0)]) := by decide
  have h2 : matchStudentsGo capsAB ((sortStudents [stuA, stuB]).take 2)
      (initTrackCount capsAB) [] =
      .ok ([⟨stuA, "A", 1⟩, ⟨stuB, "B", 2⟩], [("A", 1), ("B", 1)]) := by decide
  have R := c2_assignment_rank_sound [stuA, stuB] capsAB 1 [⟨stuA, "A", 1⟩]
    [("A", 1), ("B", 0)] [⟨stuA, "A", 1⟩, ⟨stuB, "B", 2⟩] [("A", 1), ("B", 1)]
    ⟨stuB, "B", 2⟩ h1 h2 rfl
  exact ⟨h1, h2, R.1, R.2.2.2.1, R.2.2.2.2 0 "A" (by decide) (by decide)⟩

/-- C3: candidates are processed in descending merit-score order: the
merit-sorted list used by `match_students` is sorted by `avg_grade` descending
(so a strictly higher score is processed strictly earlier), candidates with
equal scores retain their relative input order (the sublist at any given score
is unchanged), and the sorted list is a permutation of the input. -/
theorem c3_merit_order_stable (student_list : List Student) :
    (∀ i j : Fin (sortStudents student_list).length, i < j →
      ((sortStudents student_list).get j).avg_grade ≤
        ((sortStudents student_list).get i).avg_grade) ∧
    (∀ q : ℚ, (sortStudents student_list).filter (fun s => s.avg_grade = q) =
      student_list.filter (fun s => s.avg_grade = q)) ∧
    List.Perm (sortStudents student_list) student_list := by
  refine ⟨?_, fun q => sortStudents_filter q student_list, sortStudents_perm student_list⟩
  intro i j hij
  exact List.pairwise_iff_get.mp (sortStudents_pairwise student_list) i j hij

theorem c3_merit_order_stable_witness :
    ((sortStudents [stuA, stuB]).get ⟨1, by decide⟩).avg_grade ≤
      ((sortStudents [stuA, stuB]).get ⟨0, by decide⟩).avg_grade ∧
    (sortStudents [stuA, stuB]).filter (fun s => s.avg_grade = 0) =
      [stuA, stuB].filter (fun s => s.avg_grade = 0) ∧
    List.Perm (sortStudents [stuA, stuB]) [stuA, stuB] :=
  ⟨(c3_merit_order_stable [stuA, stuB]).1 ⟨0, by decide⟩ ⟨1, by decide⟩ (by decide),
   (c3_merit_order_stable [stuA, stuB]).2.1 0,
   (c3_merit_order_stable [stuA, stuB]).2.2⟩

/-- C4: every candidate's merit score equals the weighted sum of present grades
over known-weighted periods divided by the sum of the corresponding weights
when that weighted sum is strictly positive, and 0 otherwise (periods absent
from the weight table contribute to neither sum, by definition of
`specWeightedSum` and `specWeightTotal`); in particular, the spec's worked
example — grades S5=10, S6=None, S7=12, S8=None with weights 1,1,2,2 — scores
34/3. -/
theorem c4_avg_grade_formula :
    (∀ s : Student, s.avg_grade =
      if 0 < specWeightedSum s.grade_list then
        specWeightedSum s.grade_list / (specWeightTotal s.grade_list : ℚ)
      else 0) ∧
    stuE.avg_grade = 34 / 3 := by
  constructor
  · intro s
    exact computeAvgGrade_eq_spec s.grade_list
  · show computeAvgGrade stuE.grade_list = 34 / 3
    simp +decide [stuE, computeAvgGrade, avgStep, dictLookup, get_semester_weights]
    norm_num

/-- C5 (code bug): with an empty match list (total assigned count 0) and the
program's own capacity table, the rank-summary loop of `print_results` raises
`ZeroDivisionError`, because `match_count / total_match_count` is evaluated
before the `match_count > 0` guard; the spec requires the percentage to be
skipped instead. -/
theorem c5_report_divides_by_zero :
    wishSummary [] get_track_capacities = .error "ZeroDivisionError" := by decide

/-- C6: a category with capacity 0 never receives an Assignment in any
successful run (first conjunct); a candidate all of whose wishes name full
tracks produces no Assignment — `match_student` returns `None`, only a warning
is printed (second conjunct) — and the run simply continues with the remaining
candidates and unchanged state (third conjunct). -/
theorem c6_full_category_handling :
    (∀ (student_list : List Student) (track_capacities : List (String × ℕ))
      (ms : List Match) (C : String),
      match_students student_list track_capacities = .ok ms →
      dictLookup track_capacities C = some 0 →
      ∀ m ∈ ms, m.track_name ≠ C) ∧
    (∀ (s : Student) (track_count track_capacities : List (String × ℕ)),
      s.wish_list ≠ [] →
      (∀ t ∈ s.wish_list, TrackFull track_count track_capacities t) →
      match_student s track_count track_capacities = .ok none) ∧
    (∀ (s : Student) (track_count track_capacities : List (String × ℕ))
      (rest : List Student) (acc : List Match),
      s.wish_list ≠ [] →
      (∀ t ∈ s.wish_list, TrackFull track_count track_capacities t) →
      matchStudentsGo track_capacities (s :: rest) track_count acc =
        matchStudentsGo track_capacities rest track_count acc) := by
  refine ⟨?_, match_student_all_full, ?_⟩
  · intro student_list track_capacities ms C h hC
    have hinit : CountInv track_capacities (initTrackCount track_capacities) [] := by
      constructor
      · intro C' hC'
        rw [dictLookup_initTrackCount, hC']
        rfl
      · intro C' k hC'
        rw [dictLookup_initTrackCount, hC']
        exact ⟨rfl, Nat.zero_le k⟩
    rw [match_students] at h
    rcases hgo : matchStudentsGo track_capacities (sortStudents student_list)
        (initTrackCount track_capacities) [] with e | p
    · rw [hgo] at h
      simp [Except.map] at h
    · rw [hgo] at h
      have hms : p.1 = ms := by simpa [Except.map] using h
      subst hms
      have hcount :=
        ((matchStudentsGo_inv track_capacities _ _ _ _ _ hinit hgo).2 C 0 hC).2
      have hzero : countTrack p.1 C = 0 := Nat.le_zero.mp hcount
      rw [countTrack, List.length_eq_zero, List.filter_eq_nil_iff] at hzero
      intro m hmem
      simpa using hzero m hmem
  · intro s track_count track_capacities rest acc hne hfull
    simp only [matchStudentsGo, match_student_all_full s track_count track_capacities hne hfull]

/-- Counter state in which both example tracks are full. -/
def cntFull : List (String × ℕ) := [("A", 1), ("B", 1)]

/-- Capacity table whose track A has capacity zero. -/
def capsA0 : List (String × ℕ) := [("A", 0), ("B", 1)]

theorem c6_full_category_handling_witness :
    match_students [stuA] capsA0 = .ok [⟨stuA, "B", 2⟩] ∧
    (⟨stuA, "B", 2⟩ : Match).track_name ≠ "A" ∧
    match_student stuA cntFull capsAB = .ok none ∧
    matchStudentsGo capsAB [stuA] cntFull [] = matchStudentsGo capsAB [] cntFull [] := by
  have hfull : ∀ t ∈ stuA.wish_list, TrackFull cntFull capsAB t := by
    intro t ht
    simp [stuA] at ht
    rcases ht with rfl | rfl
    · exact ⟨1, rfl, rfl⟩
    · exact ⟨1, rfl, rfl⟩
  refine ⟨by decide, ?_, ?_, ?_⟩
  · exact (c6_full_category_handling).1 [stuA] capsA0 [⟨stuA, "B", 2⟩] "A" (by decide)
      (by decide) ⟨stuA, "B", 2⟩ (by simp)
  · exact (c6_full_category_handling).2.1 stuA cntFull capsAB (by decide) hfull
  · exact (c6_full_category_handling).2.2 stuA cntFull capsAB [] [] (by decide) hfull

/-- C7: the allocator is deterministic and idempotent — it is a pure function
of its inputs, so two runs over equal candidate lists and equal capacity
tables produce identical Assignment sequences. -/
theorem c7_deterministic (l1 l2 : List Student) (cap1 cap2 : List (String × ℕ))
    (h1 : l1 = l2) (h2 : cap1 = cap2) :
    match_students l1 cap1 = match_students l2 cap2 := by
  rw [h1, h2]

theorem c7_deterministic_witness :
    match_students [stuA, stuB] capsAB = match_students [stuA, stuB] capsAB :=
  c7_deterministic [stuA, stuB] [stuA, stuB] capsAB capsAB rfl rfl

/-- C8 counterexample: with two categories of capacity 1 and candidates whose
preference lists have arity 3 (wishes A, A, B), the run assigns stuD at rank 3,
yet the reporter — which iterates ranks `1..len(track_capacities)`, here 1..2,
not `1..K` for `K` the preference-list arity 3 — emits no line for rank 3 even
though its count is 1. -/
theorem c8_report_rank_range_counterexample :
    match_students [stuC, stuD] capsAB = .ok exMatches3 ∧
    stuC.wish_list.length = 3 ∧ stuD.wish_list.length = 3 ∧
    (exMatches3.filter (fun m => m.wish_rank = 3)).length = 1 ∧
    wishSummary exMatches3 capsAB = .ok [(1, 1, (1 : ℚ) / 2)] ∧
    List.all [((1 : ℕ), (1 : ℕ), (1 : ℚ) / 2)] (fun e => e.1 ≠ 3) = true := by
  refine ⟨by decide, by decide, by decide, by decide, ?_, by decide⟩
  rw [wishSummary_eq_spec exMatches3 capsAB (by decide)]
  simp +decide [specWishSummary, specWishLine, exMatches3, capsAB, List.range',
    stuC, stuD]

/-- C8 amended: for every run with at least one assignment, the reporter
produces, for each rank from 1 to the number of categories in the capacity
table (which coincides with the preference-list arity only when the two are
equal), the count of Assignments at that rank together with its percentage of
the total, omitting ranks whose count is zero; with zero assignments it
instead raises `ZeroDivisionError` (claim C5). -/
theorem c8_report_rank_range (match_list : List Match)
    (track_capacities : List (String × ℕ)) (h : match_list.length ≠ 0) :
    wishSummary match_list track_capacities =
      .ok (specWishSummary match_list track_capacities.length) :=
  wishSummary_eq_spec match_list track_capacities h

theorem c8_report_rank_range_witness :
    exMatches3.length ≠ 0 ∧
    wishSummary exMatches3 capsAB = .ok (specWishSummary exMatches3 capsAB.length) :=
  ⟨by decide, c8_report_rank_range exMatches3 capsAB (by decide)⟩

/-- C9: each candidate is allocated at most once — the students of the match
list form a sublist of the merit-sorted candidate list (so each occurrence of a
candidate yields at most one Assignment, in processing order), the number of
Assignments mentioning any candidate is at most that candidate's multiplicity
in the input, and distinct input candidates yield pairwise distinct assigned
candidates; a candidate is unassigned exactly when no Assignment mentions them. -/
theorem c9_at_most_one_assignment (student_list : List Student)
    (track_capacities : List (String × ℕ)) (ms : List Match)
    (h : match_students student_list track_capacities = .ok ms) :
    List.Sublist (ms.map Match.student) (sortStudents student_list) ∧
    (∀ s : Student, (ms.map Match.student).count s ≤ student_list.count s) ∧
    (student_list.Nodup → (ms.map Match.student).Nodup) := by
  rw [match_students] at h
  rcases hgo : matchStudentsGo track_capacities (sortStudents student_list)
      (initTrackCount track_capacities) [] with e | p
  · rw [hgo] at h
    simp [Except.map] at h
  rw [hgo] at h
  have hms : p.1 = ms := by simpa [Except.map] using h
  obtain ⟨ms2, heq, hsub⟩ := matchStudentsGo_students_sublist track_capacities _ _ _ _ _ hgo
  have hms2 : ms = ms2 := by
    rw [← hms, heq]
    simp
  subst hms2
  refine ⟨hsub, ?_, ?_⟩
  · intro s
    exact le_trans (hsub.count_le s)
      (le_of_eq ((sortStudents_perm student_list).count_eq s))
  · intro hnodup
    exact ((sortStudents_perm student_list).nodup_iff.mpr hnodup).sublist hsub

theorem c9_at_most_one_assignment_witness :
    match_students [stuA, stuB] capsAB = .ok [⟨stuA, "A", 1⟩, ⟨stuB, "B", 2⟩] ∧
    List.Sublist ([(⟨stuA, "A", 1⟩ : Match), ⟨stuB, "B", 2⟩].map Match.student)
      (sortStudents [stuA, stuB]) ∧
    ([(⟨stuA, "A", 1⟩ : Match), ⟨stuB, "B", 2⟩].map Match.student).count stuA ≤
      [stuA, stuB].count stuA :=
  ⟨by decide,
   (c9_at_most_one_assignment [stuA, stuB] capsAB [⟨stuA, "A", 1⟩, ⟨stuB, "B", 2⟩]
     (by decide)).1,
   (c9_at_most_one_assignment [stuA, stuB] capsAB [⟨stuA, "A", 1⟩, ⟨stuB, "B", 2⟩]
     (by decide)).2.1 stuA⟩

/-- C10: under the precondition that the candidate's preference list is
non-empty and every entry is a key of both the counter table and the capacity
table, `match_student` is total: it returns `Except.ok` of either an
Assignment or `none` (the unassigned outcome), never an error — its
`KeyError`/`IndexError` branches are unreachable. -/
theorem c10_match_student_total (s : Student)
    (track_count track_capacities : List (String × ℕ))
    (hne : s.wish_list ≠ [])
    (hkeys : ∀ t ∈ s.wish_list,
      (dictLookup track_count t).isSome ∧ (dictLookup track_capacities t).isSome) :
    ∃ o, match_student s track_count track_capacities = .ok o := by
  rcases hw : s.wish_list with _ | ⟨w, rest⟩
  · exact absurd hw hne
  · obtain ⟨o, ho⟩ :=
      matchLoopGo_no_error track_count track_capacities (w :: rest) (hw ▸ hkeys) 0
    refine ⟨Option.map
      (fun p => { student := s, track_name := p.1, wish_rank := p.2 }) o, ?_⟩
    rw [match_student, hw, ho]
    rfl

theorem c10_match_student_total_witness :
    stuA.wish_list ≠ [] ∧
    (∃ o, match_student stuA (initTrackCount capsAB) capsAB = .ok o) :=
  ⟨by decide,
   c10_match_student_total stuA (initTrackCount capsAB) capsAB (by decide) (by decide)⟩

end StudentTrackMatch
